import Mathlib

/-!
Verification of the lexical front end of `darglint` (`darglint/lex.py`):
the character-level tokenizer `lex` and the token-stream `condense` pass.

The embedding is a direct shallow translation of the Python source:

* `Token` / `TokenType` mirror the token data model (`value`, `token_type`,
  `line_number`).
* The character predicates `_is_space`, `_is_newline`, ... mirror the
  classification helpers; Python's unicode-aware `str.isspace` is embedded
  as `pyIsSpace` (the exact character set of CPython's `str.isspace`).
* The generator `lex` is embedded as the fueled function `lexAux`, which
  returns `Option (List Token)`: `none` models the `assert` in the final
  word branch firing (an `AssertionError` aborting the generator).  The
  fuel argument only bounds the recursion; `lexAux_fuel_irrelevant` shows
  any fuel of at least the input length gives the same result.
* `condense` is a structural recursion over the token list with the
  running accumulator threaded explicitly (the Python code mutates `curr`).
-/

/-- The token kinds of `darglint.token.TokenType`, including the
keyword-promoted kinds used by `condense`. -/
inductive TokenType where
  | INDENT
  | NEWLINE
  | COLON
  | HASH
  | LPAREN
  | RPAREN
  | WORD
  | DOCTERM
  | ARGUMENTS
  | YIELDS
  | RAISES
  | RETURNS
  | NOQA
  deriving DecidableEq, Repr

/-- The token record of `darglint.token.Token`: a literal value, a kind,
and the 0-based line number on which the token began. -/
structure Token where
  value : String
  token_type : TokenType
  line_number : Nat
  deriving DecidableEq, Repr

/-- CPython's `str.isspace` on a single character: true exactly for the
unicode whitespace characters (bidirectional class WS, B or S, or
category Zs). -/
def pyIsSpace (c : Char) : Bool :=
  (0x9 ≤ c.toNat && c.toNat ≤ 0xd) ||
  (0x1c ≤ c.toNat && c.toNat ≤ 0x1f) ||
  c.toNat == 0x20 || c.toNat == 0x85 || c.toNat == 0xa0 ||
  c.toNat == 0x1680 ||
  (0x2000 ≤ c.toNat && c.toNat ≤ 0x200a) ||
  c.toNat == 0x2028 || c.toNat == 0x2029 || c.toNat == 0x202f ||
  c.toNat == 0x205f || c.toNat == 0x3000

def _is_space (c : Char) : Bool := c == ' '

def _is_newline (c : Char) : Bool := c == '\n'

def _is_colon (c : Char) : Bool := c == ':'

def _is_hash (c : Char) : Bool := c == '#'

/-- `_is_separator`: whitespace other than space or newline. -/
def _is_separator (c : Char) : Bool :=
  pyIsSpace c && !(_is_space c || _is_newline c)

def _is_double_quotation (c : Char) : Bool := c == '"'

def _is_lparen (c : Char) : Bool := c == '('

def _is_rparen (c : Char) : Bool := c == ')'

/-- `_is_word`: a character that is none of the special classes. -/
def _is_word (c : Char) : Bool :=
  !(_is_space c || _is_newline c || _is_colon c || _is_separator c ||
    _is_double_quotation c || _is_hash c || _is_lparen c || _is_rparen c)

/-- The INDENT token emitted for each complete group of four spaces:
`Token(' ' * 4, TokenType.INDENT, line_number)`. -/
def indentToken (ln : Nat) : Token :=
  Token.mk (String.mk (List.replicate 4 ' ')) TokenType.INDENT ln

/-- The DOCTERM token emitted for each complete group of three quotes:
`Token('\x22\x22\x22', TokenType.DOCTERM, line_number)`. -/
def doctermToken (ln : Nat) : Token :=
  Token.mk (String.mk ['"', '"', '"']) TokenType.DOCTERM ln

/-- The value of a WORD token: the word run, prefixed by the pending
`extra` when it is non-empty (`if extra != '': value = extra + value`). -/
def wordValue (extra : String) (w : List Char) : String :=
  if extra ≠ "" then extra ++ String.mk w else String.mk w

/-- The loop body of the generator `lex`, with the remaining characters,
the pending `extra` prefix and the current `line_number` made explicit.
`none` models the `assert len(value) > 0` in the word branch raising.
The fuel bounds the number of loop iterations; each iteration consumes at
least one character, so any fuel `≥` the input length suffices. -/
def lexAux : Nat → List Char → String → Nat → Option (List Token)
  | 0, _, _, _ => some []
  | _ + 1, [], _, _ => some []
  | fuel + 1, c :: cs, extra, ln =>
    if _is_space c then
      (fun ts =>
          List.replicate (((c :: cs).takeWhile _is_space).length / 4)
            (indentToken ln) ++ ts) <$>
        lexAux fuel ((c :: cs).dropWhile _is_space) extra ln
    else if _is_newline c then
      (fun ts => Token.mk (String.mk [c]) TokenType.NEWLINE ln :: ts) <$>
        lexAux fuel cs extra (ln + 1)
    else if _is_colon c then
      (fun ts => Token.mk (String.mk [c]) TokenType.COLON ln :: ts) <$>
        lexAux fuel cs extra ln
    else if _is_separator c then
      lexAux fuel ((c :: cs).dropWhile _is_separator) extra ln
    else if _is_double_quotation c then
      if 3 ≤ ((c :: cs).takeWhile _is_double_quotation).length then
        (fun ts =>
            List.replicate (((c :: cs).takeWhile _is_double_quotation).length / 3)
              (doctermToken ln) ++ ts) <$>
          lexAux fuel ((c :: cs).dropWhile _is_double_quotation) extra ln
      else
        lexAux fuel ((c :: cs).dropWhile _is_double_quotation)
          (String.mk ((c :: cs).takeWhile _is_double_quotation)) ln
    else if _is_hash c then
      (fun ts => Token.mk (String.mk [c]) TokenType.HASH ln :: ts) <$>
        lexAux fuel cs extra ln
    else if _is_lparen c then
      (fun ts => Token.mk (String.mk [c]) TokenType.LPAREN ln :: ts) <$>
        lexAux fuel cs extra ln
    else if _is_rparen c then
      (fun ts => Token.mk (String.mk [c]) TokenType.RPAREN ln :: ts) <$>
        lexAux fuel cs extra ln
    else
      if 0 < (wordValue extra ((c :: cs).takeWhile _is_word)).length then
        (fun ts =>
            Token.mk (wordValue extra ((c :: cs).takeWhile _is_word))
              TokenType.WORD ln :: ts) <$>
          lexAux fuel ((c :: cs).dropWhile _is_word) "" ln
      else
        none

/-- `lex` on a character list, starting from a given pending prefix and
line number, with just enough fuel. -/
def lexList (l : List Char) (extra : String) (ln : Nat) : List Token :=
  (lexAux l.length l extra ln).getD []

/-- `lex(program)` as a list of tokens (the generator, run to
exhaustion). -/
def lex (program : String) : List Token :=
  lexList program.data "" 0

/-- `lex` on an optional input: `Peaker((x for x in program or []))`
treats `none` (and the empty string, both falsy) as the empty stream. -/
def lexOptInput (program : Option String) : List Token :=
  lex (program.getD "")

/-- The `KEYWORDS` table: reserved words mapped to grammatical kinds. -/
def keywordLookup : String → Option TokenType
  | "Args" => some TokenType.ARGUMENTS
  | "Yields" => some TokenType.YIELDS
  | "Raises" => some TokenType.RAISES
  | "Returns" => some TokenType.RETURNS
  | "noqa" => some TokenType.NOQA
  | _ => none

/-- The loop of `condense`, with the running accumulator `curr` explicit.
The first branch requires `token.token_type == TokenType.WORD and
token.value in KEYWORDS`. -/
def condenseAux (curr : Token) : List Token → List Token
  | [] => [curr]
  | t :: rest =>
    if t.token_type = TokenType.WORD then
      match keywordLookup t.value with
      | some k => curr :: condenseAux (Token.mk t.value k t.line_number) rest
      | none =>
        if curr.token_type = TokenType.WORD then
          condenseAux
            (Token.mk (curr.value ++ " " ++ t.value) curr.token_type
              curr.line_number) rest
        else
          curr :: condenseAux t rest
    else
      curr :: condenseAux t rest

/-- `condense(tokens)`: empty input gives the empty list; otherwise the
first token seeds the accumulator, promoted whenever its *value* is in
`KEYWORDS` (the first token's kind is not inspected, unlike the loop). -/
def condense : List Token → List Token
  | [] => []
  | t :: rest =>
    let curr := match keywordLookup t.value with
      | some k => Token.mk t.value k t.line_number
      | none => t
    condenseAux curr rest

/-- Values of `m` WORD fragments joined in order by single spaces, as
`condense` accumulates them. -/
def joinSpaces : List String → String
  | [] => ""
  | [v] => v
  | v :: vs => v ++ " " ++ joinSpaces vs

/-! ### List and string helpers -/

theorem length_dropWhile_le (p : Char → Bool) (l : List Char) :
    (l.dropWhile p).length ≤ l.length := by
  induction l with
  | nil => simp [List.dropWhile]
  | cons c cs ih =>
    by_cases h : p c
    · simp only [List.dropWhile, h]
      exact Nat.le_trans ih (Nat.le_succ _)
    · simp [List.dropWhile, h]

theorem dropWhile_cons_pos (p : Char → Bool) (c : Char) (cs : List Char)
    (h : p c = true) : (c :: cs).dropWhile p = cs.dropWhile p := by
  simp [List.dropWhile, h]

theorem takeWhile_cons_pos (p : Char → Bool) (c : Char) (cs : List Char)
    (h : p c = true) : (c :: cs).takeWhile p = c :: cs.takeWhile p := by
  simp [List.takeWhile, h]

theorem dropWhile_cons_le (p : Char → Bool) (c : Char) (cs : List Char)
    (h : p c = true) : ((c :: cs).dropWhile p).length ≤ cs.length := by
  rw [dropWhile_cons_pos p c cs h]
  exact length_dropWhile_le p cs

theorem takeWhile_head_neg (p : Char → Bool) (l : List Char)
    (h : ∀ d, l.head? = some d → p d = false) : l.takeWhile p = [] := by
  cases l with
  | nil => rfl
  | cons c cs => simp [List.takeWhile, h c rfl]

theorem dropWhile_head_neg (p : Char → Bool) (l : List Char)
    (h : ∀ d, l.head? = some d → p d = false) : l.dropWhile p = l := by
  cases l with
  | nil => rfl
  | cons c cs => simp [List.dropWhile, h c rfl]

theorem takeWhile_append_of_all (p : Char → Bool) (w rest : List Char)
    (hw : ∀ c ∈ w, p c = true)
    (hrest : ∀ d, rest.head? = some d → p d = false) :
    (w ++ rest).takeWhile p = w := by
  induction w with
  | nil => exact takeWhile_head_neg p rest hrest
  | cons c cs ih =>
    have hc : p c = true := hw c (List.mem_cons_self c cs)
    rw [List.cons_append, takeWhile_cons_pos p c (cs ++ rest) hc,
      ih (fun d hd => hw d (List.mem_cons_of_mem c hd))]

theorem dropWhile_append_of_all (p : Char → Bool) (w rest : List Char)
    (hw : ∀ c ∈ w, p c = true)
    (hrest : ∀ d, rest.head? = some d → p d = false) :
    (w ++ rest).dropWhile p = rest := by
  induction w with
  | nil => exact dropWhile_head_neg p rest hrest
  | cons c cs ih =>
    have hc : p c = true := hw c (List.mem_cons_self c cs)
    rw [List.cons_append, dropWhile_cons_pos p c (cs ++ rest) hc,
      ih (fun d hd => hw d (List.mem_cons_of_mem c hd))]

/-- Exhaustiveness of the classification: a character rejected by all
eight special-character predicates satisfies `_is_word`. -/
theorem _is_word_of_not_special (c : Char)
    (h1 : _is_space c = false) (h2 : _is_newline c = false)
    (h3 : _is_colon c = false) (h4 : _is_separator c = false)
    (h5 : _is_double_quotation c = false) (h6 : _is_hash c = false)
    (h7 : _is_lparen c = false) (h8 : _is_rparen c = false) :
    _is_word c = true := by
  simp [_is_word, h1, h2, h3, h4, h5, h6, h7, h8]

theorem wordValue_length_pos (extra : String) (c : Char) (w : List Char) :
    0 < (wordValue extra (c :: w)).length := by
  unfold wordValue
  by_cases h : extra ≠ ""
  · rw [if_pos h]
    have : (extra ++ String.mk (c :: w)).length
        = extra.length + (String.mk (c :: w)).length := String.length_append _ _
    rw [this]
    have : (String.mk (c :: w)).length = w.length + 1 := rfl
    omega
  · rw [if_neg h]
    have : (String.mk (c :: w)).length = w.length + 1 := rfl
    omega

/-! ### Fuel adequacy for `lexAux` -/

/-- Any two fuel values at least the input length give the same result:
the fuel is an artifact of the embedding, not of the algorithm. -/
theorem lexAux_fuel_irrelevant :
    ∀ (n m : Nat) (l : List Char) (extra : String) (ln : Nat),
      l.length ≤ n → l.length ≤ m →
      lexAux n l extra ln = lexAux m l extra ln := by
  intro n
  induction n with
  | zero =>
    intro m l extra ln hn _
    have hl : l = [] := List.eq_nil_of_length_eq_zero (Nat.le_zero.mp hn)
    subst hl
    cases m <;> rfl
  | succ n ih =>
    intro m l extra ln hn hm
    cases l with
    | nil => cases m <;> rfl
    | cons c cs =>
      cases m with
      | zero => exact absurd hm (by simp)
      | succ m =>
        have hn' : cs.length ≤ n := by simpa using hn
        have hm' : cs.length ≤ m := by simpa using hm
        simp only [lexAux]
        by_cases hsp : _is_space c = true
        · simp only [if_pos hsp]
          exact congrArg _ (ih m _ extra ln
            (Nat.le_trans (dropWhile_cons_le _ c cs hsp) hn')
            (Nat.le_trans (dropWhile_cons_le _ c cs hsp) hm'))
        simp only [if_neg hsp]
        by_cases hnl : _is_newline c = true
        · simp only [if_pos hnl]
          exact congrArg _ (ih m cs extra (ln + 1) hn' hm')
        simp only [if_neg hnl]
        by_cases hco : _is_colon c = true
        · simp only [if_pos hco]
          exact congrArg _ (ih m cs extra ln hn' hm')
        simp only [if_neg hco]
        by_cases hse : _is_separator c = true
        · simp only [if_pos hse]
          exact ih m _ extra ln
            (Nat.le_trans (dropWhile_cons_le _ c cs hse) hn')
            (Nat.le_trans (dropWhile_cons_le _ c cs hse) hm')
        simp only [if_neg hse]
        by_cases hqu : _is_double_quotation c = true
        · simp only [if_pos hqu]
          by_cases hq3 : 3 ≤ ((c :: cs).takeWhile _is_double_quotation).length
          · simp only [if_pos hq3]
            exact congrArg _ (ih m _ extra ln
              (Nat.le_trans (dropWhile_cons_le _ c cs hqu) hn')
              (Nat.le_trans (dropWhile_cons_le _ c cs hqu) hm'))
          · simp only [if_neg hq3]
            exact ih m _ _ ln
              (Nat.le_trans (dropWhile_cons_le _ c cs hqu) hn')
              (Nat.le_trans (dropWhile_cons_le _ c cs hqu) hm')
        simp only [if_neg hqu]
        by_cases hha : _is_hash c = true
        · simp only [if_pos hha]
          exact congrArg _ (ih m cs extra ln hn' hm')
        simp only [if_neg hha]
        by_cases hlp : _is_lparen c = true
        · simp only [if_pos hlp]
          exact congrArg _ (ih m cs extra ln hn' hm')
        simp only [if_neg hlp]
        by_cases hrp : _is_rparen c = true
        · simp only [if_pos hrp]
          exact congrArg _ (ih m cs extra ln hn' hm')
        simp only [if_neg hrp]
        have hw : _is_word c = true :=
          _is_word_of_not_special c
            (Bool.eq_false_iff.mpr hsp) (Bool.eq_false_iff.mpr hnl)
            (Bool.eq_false_iff.mpr hco) (Bool.eq_false_iff.mpr hse)
            (Bool.eq_false_iff.mpr hqu) (Bool.eq_false_iff.mpr hha)
            (Bool.eq_false_iff.mpr hlp) (Bool.eq_false_iff.mpr hrp)
        by_cases hwv : 0 < (wordValue extra ((c :: cs).takeWhile _is_word)).length
        · simp only [if_pos hwv]
          exact congrArg _ (ih m _ "" ln
            (Nat.le_trans (dropWhile_cons_le _ c cs hw) hn')
            (Nat.le_trans (dropWhile_cons_le _ c cs hw) hm'))
        · simp only [if_neg hwv]

/-- `lexAux` never fails: the word-branch assertion check always passes,
because the word run begins with the character that selected the branch. -/
theorem lexAux_eq_some :
    ∀ (n : Nat) (l : List Char) (extra : String) (ln : Nat),
      ∃ ts, lexAux n l extra ln = some ts := by
  intro n
  induction n with
  | zero => intro l extra ln; exact ⟨[], rfl⟩
  | succ n ih =>
    intro l extra ln
    cases l with
    | nil => exact ⟨[], rfl⟩
    | cons c cs =>
      simp only [lexAux]
      by_cases hsp : _is_space c = true
      · simp only [if_pos hsp]
        obtain ⟨us, hus⟩ := ih ((c :: cs).dropWhile _is_space) extra ln
        exact ⟨_, by rw [hus]; rfl⟩
      simp only [if_neg hsp]
      by_cases hnl : _is_newline c = true
      · simp only [if_pos hnl]
        obtain ⟨us, hus⟩ := ih cs extra (ln + 1)
        exact ⟨_, by rw [hus]; rfl⟩
      simp only [if_neg hnl]
      by_cases hco : _is_colon c = true
      · simp only [if_pos hco]
        obtain ⟨us, hus⟩ := ih cs extra ln
        exact ⟨_, by rw [hus]; rfl⟩
      simp only [if_neg hco]
      by_cases hse : _is_separator c = true
      · simp only [if_pos hse]
        exact ih ((c :: cs).dropWhile _is_separator) extra ln
      simp only [if_neg hse]
      by_cases hqu : _is_double_quotation c = true
      · simp only [if_pos hqu]
        by_cases hq3 : 3 ≤ ((c :: cs).takeWhile _is_double_quotation).length
        · simp only [if_pos hq3]
          obtain ⟨us, hus⟩ := ih ((c :: cs).dropWhile _is_double_quotation) extra ln
          exact ⟨_, by rw [hus]; rfl⟩
        · simp only [if_neg hq3]
          exact ih ((c :: cs).dropWhile _is_double_quotation) _ ln
      simp only [if_neg hqu]
      by_cases hha : _is_hash c = true
      · simp only [if_pos hha]
        obtain ⟨us, hus⟩ := ih cs extra ln
        exact ⟨_, by rw [hus]; rfl⟩
      simp only [if_neg hha]
      by_cases hlp : _is_lparen c = true
      · simp only [if_pos hlp]
        obtain ⟨us, hus⟩ := ih cs extra ln
        exact ⟨_, by rw [hus]; rfl⟩
      simp only [if_neg hlp]
      by_cases hrp : _is_rparen c = true
      · simp only [if_pos hrp]
        obtain ⟨us, hus⟩ := ih cs extra ln
        exact ⟨_, by rw [hus]; rfl⟩
      simp only [if_neg hrp]
      have hw : _is_word c = true :=
        _is_word_of_not_special c
          (Bool.eq_false_iff.mpr hsp) (Bool.eq_false_iff.mpr hnl)
          (Bool.eq_false_iff.mpr hco) (Bool.eq_false_iff.mpr hse)
          (Bool.eq_false_iff.mpr hqu) (Bool.eq_false_iff.mpr hha)
          (Bool.eq_false_iff.mpr hlp) (Bool.eq_false_iff.mpr hrp)
      have hwv : 0 < (wordValue extra ((c :: cs).takeWhile _is_word)).length := by
        rw [takeWhile_cons_pos _is_word c cs hw]
        exact wordValue_length_pos extra c (cs.takeWhile _is_word)
      simp only [if_pos hwv]
      obtain ⟨us, hus⟩ := ih ((c :: cs).dropWhile _is_word) "" ln
      exact ⟨_, by rw [hus]; rfl⟩

/-- Adequately fueled runs of `lexAux` compute `lexList`. -/
theorem lexAux_eq_some_lexList (n : Nat) (l : List Char) (extra : String)
    (ln : Nat) (h : l.length ≤ n) :
    lexAux n l extra ln = some (lexList l extra ln) := by
  obtain ⟨ts, hts⟩ := lexAux_eq_some l.length l extra ln
  rw [lexAux_fuel_irrelevant n l.length l extra ln h (Nat.le_refl _), hts]
  simp [lexList, hts]

/-! ### Behavior of each classification branch -/

/-- A maximal run of `k` spaces yields `k / 4` INDENT tokens on the
current line and leaves the pending prefix and line counter unchanged. -/
theorem lexList_space_run (k : Nat) (rest : List Char) (extra : String)
    (ln : Nat) (hrest : ∀ d, rest.head? = some d → _is_space d = false) :
    lexList (List.replicate k ' ' ++ rest) extra ln
      = List.replicate (k / 4) (indentToken ln) ++ lexList rest extra ln := by
  cases k with
  | zero => simp
  | succ k =>
    have hmem : ∀ c ∈ List.replicate (k + 1) ' ', _is_space c = true := by
      intro c hc
      rw [List.eq_of_mem_replicate hc]
      rfl
    have htake : (List.replicate (k + 1) ' ' ++ rest).takeWhile _is_space
        = List.replicate (k + 1) ' ' :=
      takeWhile_append_of_all _ _ _ hmem hrest
    have hdrop : (List.replicate (k + 1) ' ' ++ rest).dropWhile _is_space
        = rest :=
      dropWhile_append_of_all _ _ _ hmem hrest
    rw [List.replicate_succ, List.cons_append] at htake hdrop ⊢
    simp only [lexList, List.length_cons, lexAux,
      if_pos (show _is_space ' ' = true from rfl), htake, hdrop]
    rw [lexAux_eq_some_lexList _ rest extra ln (by simp)]
    simp [List.length_replicate, lexList]

/-- A word character is rejected by every special-character predicate. -/
theorem word_char_guards (c : Char) (h : _is_word c = true) :
    _is_space c = false ∧ _is_newline c = false ∧ _is_colon c = false ∧
    _is_separator c = false ∧ _is_double_quotation c = false ∧
    _is_hash c = false ∧ _is_lparen c = false ∧ _is_rparen c = false := by
  simp only [_is_word, Bool.not_eq_eq_eq_not, Bool.not_true,
    Bool.or_eq_false_iff] at h
  tauto

theorem wordValue_eq_append (extra : String) (w : List Char) :
    wordValue extra w = extra ++ String.mk w := by
  unfold wordValue
  by_cases h : extra = ""
  · subst h
    simp
  · rw [if_pos h]

/-- One newline character: one NEWLINE token on the current line, then
the line counter increments. -/
theorem lexList_newline (rest : List Char) (extra : String) (ln : Nat) :
    lexList ('\n' :: rest) extra ln
      = Token.mk (String.mk ['\n']) TokenType.NEWLINE ln
          :: lexList rest extra (ln + 1) := by
  simp only [lexList, List.length_cons, lexAux,
    if_neg (show ¬(_is_space '\n' = true) from by decide),
    if_pos (show _is_newline '\n' = true from rfl)]
  rw [lexAux_eq_some_lexList _ rest extra (ln + 1) (Nat.le_refl _)]
  simp [lexList]

/-- One colon character: one COLON token, state unchanged. -/
theorem lexList_colon (rest : List Char) (extra : String) (ln : Nat) :
    lexList (':' :: rest) extra ln
      = Token.mk (String.mk [':']) TokenType.COLON ln
          :: lexList rest extra ln := by
  simp only [lexList, List.length_cons, lexAux,
    if_neg (show ¬(_is_space ':' = true) from by decide),
    if_neg (show ¬(_is_newline ':' = true) from by decide),
    if_pos (show _is_colon ':' = true from rfl)]
  rw [lexAux_eq_some_lexList _ rest extra ln (Nat.le_refl _)]
  simp [lexList]

/-- A maximal run of `k ≥ 1` double quotes: `k / 3` DOCTERM tokens when
`k ≥ 3` with the pending prefix untouched (the remainder is dropped);
otherwise no token, and the run replaces the pending prefix. -/
theorem lexList_quote_run (k : Nat) (rest : List Char) (extra : String)
    (ln : Nat) (hk : 1 ≤ k)
    (hrest : ∀ d, rest.head? = some d → _is_double_quotation d = false) :
    lexList (List.replicate k '"' ++ rest) extra ln
      = if 3 ≤ k then
          List.replicate (k / 3) (doctermToken ln) ++ lexList rest extra ln
        else
          lexList rest (String.mk (List.replicate k '"')) ln := by
  cases k with
  | zero => exact absurd hk (by decide)
  | succ k =>
    have hmem : ∀ c ∈ List.replicate (k + 1) '"',
        _is_double_quotation c = true := by
      intro c hc
      rw [List.eq_of_mem_replicate hc]
      rfl
    have htake : (List.replicate (k + 1) '"' ++ rest).takeWhile
        _is_double_quotation = List.replicate (k + 1) '"' :=
      takeWhile_append_of_all _ _ _ hmem hrest
    have hdrop : (List.replicate (k + 1) '"' ++ rest).dropWhile
        _is_double_quotation = rest :=
      dropWhile_append_of_all _ _ _ hmem hrest
    rw [List.replicate_succ, List.cons_append] at htake hdrop
    rw [List.replicate_succ, List.cons_append]
    simp only [lexList, List.length_cons, lexAux,
      if_neg (show ¬(_is_space '"' = true) from by decide),
      if_neg (show ¬(_is_newline '"' = true) from by decide),
      if_neg (show ¬(_is_colon '"' = true) from by decide),
      if_neg (show ¬(_is_separator '"' = true) from by decide),
      if_pos (show _is_double_quotation '"' = true from rfl), htake, hdrop]
    rw [List.length_replicate]
    by_cases h3 : 3 ≤ k + 1
    · rw [if_pos h3, if_pos h3]
      rw [lexAux_eq_some_lexList _ rest extra ln (by simp)]
      simp [lexList]
    · rw [if_neg h3, if_neg h3]
      rw [lexAux_eq_some_lexList _ rest (String.mk ('"' :: List.replicate k '"')) ln (by simp)]
      simp [lexList]

/-- A maximal non-empty run of word characters: one WORD token whose
value is the run prefixed by the pending `extra`, which is then
cleared. -/
theorem lexList_word_run (w rest : List Char) (extra : String) (ln : Nat)
    (hne : w ≠ []) (hw : ∀ c ∈ w, _is_word c = true)
    (hrest : ∀ d, rest.head? = some d → _is_word d = false) :
    lexList (w ++ rest) extra ln
      = Token.mk (extra ++ String.mk w) TokenType.WORD ln
          :: lexList rest "" ln := by
  cases w with
  | nil => exact absurd rfl hne
  | cons c w' =>
    have hc : _is_word c = true := hw c (List.mem_cons_self c w')
    obtain ⟨h1, h2, h3, h4, h5, h6, h7, h8⟩ := word_char_guards c hc
    have htake : ((c :: w') ++ rest).takeWhile _is_word = c :: w' :=
      takeWhile_append_of_all _ _ _ hw hrest
    have hdrop : ((c :: w') ++ rest).dropWhile _is_word = rest :=
      dropWhile_append_of_all _ _ _ hw hrest
    rw [List.cons_append] at htake hdrop
    simp only [List.cons_append, List.append_eq, lexList, List.length_cons, lexAux,
      if_neg (ne_true_of_eq_false h1), if_neg (ne_true_of_eq_false h2),
      if_neg (ne_true_of_eq_false h3), if_neg (ne_true_of_eq_false h4),
      if_neg (ne_true_of_eq_false h5), if_neg (ne_true_of_eq_false h6),
      if_neg (ne_true_of_eq_false h7), if_neg (ne_true_of_eq_false h8)]
    rw [htake, hdrop, if_pos (wordValue_length_pos extra c w')]
    rw [lexAux_eq_some_lexList _ rest "" ln (by simp)]
    simp [lexList, wordValue_eq_append]

/-! ### Line accounting -/

/-- Whether a token is a NEWLINE token. -/
def isNewlineTok (t : Token) : Bool :=
  decide (t.token_type = TokenType.NEWLINE)

/-- Whether a character is the newline character. -/
def isNewlineChar (c : Char) : Bool :=
  decide (c = '\n')

/-- Every token carries line number `ln` plus the number of NEWLINE
tokens emitted strictly before it (a NEWLINE token carries the line
number in effect before the counter increments). -/
def linesConsistent : Nat → List Token → Prop
  | _, [] => True
  | ln, t :: ts =>
    t.line_number = ln ∧
      linesConsistent (if t.token_type = TokenType.NEWLINE then ln + 1 else ln) ts

theorem space_ne_newline (d : Char) (h : _is_space d = true) : d ≠ '\n' := by
  simp [_is_space] at h
  simp [h]

theorem sep_ne_newline (d : Char) (h : _is_separator d = true) : d ≠ '\n' := by
  simp [_is_separator, _is_space, _is_newline] at h
  exact h.2.2

theorem quote_ne_newline (d : Char) (h : _is_double_quotation d = true) :
    d ≠ '\n' := by
  simp [_is_double_quotation] at h
  simp [h]

theorem word_ne_newline (d : Char) (h : _is_word d = true) : d ≠ '\n' := by
  obtain ⟨_, h2, _⟩ := word_char_guards d h
  intro hd
  rw [hd] at h2
  exact absurd h2 (by simp [_is_newline])

/-- Characters removed by a `take_while` whose predicate excludes the
newline character do not change the newline count. -/
theorem countP_newline_dropWhile (p : Char → Bool) (l : List Char)
    (hp : ∀ d, p d = true → d ≠ '\n') :
    l.countP isNewlineChar = (l.dropWhile p).countP isNewlineChar := by
  conv_lhs => rw [← List.takeWhile_append_dropWhile p l]
  rw [List.countP_append]
  have hz : (l.takeWhile p).countP isNewlineChar = 0 := by
    rw [List.countP_eq_zero]
    intro a ha
    have hpa : p a = true := List.mem_takeWhile_imp ha
    simp [isNewlineChar, hp a hpa]
  rw [hz, Nat.zero_add]

theorem countP_replicate_zero (p : Token → Bool) (tok : Token) (n : Nat)
    (h : p tok = false) : (List.replicate n tok).countP p = 0 := by
  rw [List.countP_eq_zero]
  intro a ha
  rw [List.eq_of_mem_replicate ha]
  simp [h]

theorem linesConsistent_replicate_append (n : Nat) (tok : Token) (ln : Nat)
    (ts : List Token) (hl : tok.line_number = ln)
    (hk : tok.token_type ≠ TokenType.NEWLINE) (h : linesConsistent ln ts) :
    linesConsistent ln (List.replicate n tok ++ ts) := by
  induction n with
  | zero => simpa using h
  | succ n ih =>
    rw [List.replicate_succ, List.cons_append]
    exact ⟨hl, by rw [if_neg hk]; exact ih⟩

/-- Core line-accounting invariant of `lex`: the emitted NEWLINE tokens
match the newline characters consumed, and every token's line number is
the starting line plus the NEWLINE tokens emitted before it. -/
theorem lexAux_count_lines :
    ∀ (n : Nat) (l : List Char) (extra : String) (ln : Nat) (ts : List Token),
      lexAux n l extra ln = some ts → l.length ≤ n →
      ts.countP isNewlineTok = l.countP isNewlineChar ∧ linesConsistent ln ts := by
  intro n
  induction n with
  | zero =>
    intro l extra ln ts hts hn
    have hl : l = [] := List.eq_nil_of_length_eq_zero (Nat.le_zero.mp hn)
    subst hl
    injection hts with h
    subst h
    exact ⟨rfl, trivial⟩
  | succ n ih =>
    intro l extra ln ts hts hn
    cases l with
    | nil =>
      injection hts with h
      subst h
      exact ⟨rfl, trivial⟩
    | cons c cs =>
      have hn' : cs.length ≤ n := by simpa using hn
      simp only [lexAux] at hts
      by_cases hsp : _is_space c = true
      · rw [if_pos hsp, Option.map_eq_map, Option.map_eq_some'] at hts
        obtain ⟨us, hus, hts'⟩ := hts
        subst hts'
        obtain ⟨hcount, hlines⟩ := ih _ extra ln us hus
          (Nat.le_trans (dropWhile_cons_le _ c cs hsp) hn')
        refine ⟨?_, ?_⟩
        · rw [List.countP_append,
            countP_replicate_zero _ _ _ (by simp [isNewlineTok, indentToken]),
            Nat.zero_add, hcount,
            ← countP_newline_dropWhile _is_space (c :: cs) space_ne_newline]
        · exact linesConsistent_replicate_append _ _ _ _ rfl
            (by simp [indentToken]) hlines
      rw [if_neg hsp] at hts
      by_cases hnl : _is_newline c = true
      · rw [if_pos hnl, Option.map_eq_map, Option.map_eq_some'] at hts
        obtain ⟨us, hus, hts'⟩ := hts
        subst hts'
        have hc : c = '\n' := by simpa [_is_newline] using hnl
        subst hc
        obtain ⟨hcount, hlines⟩ := ih cs extra (ln + 1) us hus hn'
        refine ⟨?_, ?_⟩
        · rw [List.countP_cons, List.countP_cons, hcount]
          simp [isNewlineTok, isNewlineChar]
        · exact ⟨rfl, by rw [if_pos rfl]; exact hlines⟩
      rw [if_neg hnl] at hts
      by_cases hco : _is_colon c = true
      · rw [if_pos hco, Option.map_eq_map, Option.map_eq_some'] at hts
        obtain ⟨us, hus, hts'⟩ := hts
        subst hts'
        have hc : c = ':' := by simpa [_is_colon] using hco
        subst hc
        obtain ⟨hcount, hlines⟩ := ih cs extra ln us hus hn'
        refine ⟨?_, ?_⟩
        · rw [List.countP_cons, List.countP_cons, hcount]
          simp [isNewlineTok, isNewlineChar]
        · exact ⟨rfl, by rw [if_neg (by simp)]; exact hlines⟩
      rw [if_neg hco] at hts
      by_cases hse : _is_separator c = true
      · rw [if_pos hse] at hts
        obtain ⟨hcount, hlines⟩ := ih _ extra ln ts hts
          (Nat.le_trans (dropWhile_cons_le _ c cs hse) hn')
        exact ⟨by rw [hcount,
          ← countP_newline_dropWhile _is_separator (c :: cs) sep_ne_newline],
          hlines⟩
      rw [if_neg hse] at hts
      by_cases hqu : _is_double_quotation c = true
      · rw [if_pos hqu] at hts
        by_cases hq3 : 3 ≤ ((c :: cs).takeWhile _is_double_quotation).length
        · rw [if_pos hq3, Option.map_eq_map, Option.map_eq_some'] at hts
          obtain ⟨us, hus, hts'⟩ := hts
          subst hts'
          obtain ⟨hcount, hlines⟩ := ih _ extra ln us hus
            (Nat.le_trans (dropWhile_cons_le _ c cs hqu) hn')
          refine ⟨?_, ?_⟩
          · rw [List.countP_append,
              countP_replicate_zero _ _ _ (by simp [isNewlineTok, doctermToken]),
              Nat.zero_add, hcount,
              ← countP_newline_dropWhile _is_double_quotation (c :: cs)
                quote_ne_newline]
          · exact linesConsistent_replicate_append _ _ _ _ rfl
              (by simp [doctermToken]) hlines
        · rw [if_neg hq3] at hts
          obtain ⟨hcount, hlines⟩ := ih _ _ ln ts hts
            (Nat.le_trans (dropWhile_cons_le _ c cs hqu) hn')
          exact ⟨by rw [hcount,
            ← countP_newline_dropWhile _is_double_quotation (c :: cs)
              quote_ne_newline], hlines⟩
      rw [if_neg hqu] at hts
      by_cases hha : _is_hash c = true
      · rw [if_pos hha, Option.map_eq_map, Option.map_eq_some'] at hts
        obtain ⟨us, hus, hts'⟩ := hts
        subst hts'
        have hc : c = '#' := by simpa [_is_hash] using hha
        subst hc
        obtain ⟨hcount, hlines⟩ := ih cs extra ln us hus hn'
        refine ⟨?_, ?_⟩
        · rw [List.countP_cons, List.countP_cons, hcount]
          simp [isNewlineTok, isNewlineChar]
        · exact ⟨rfl, by rw [if_neg (by simp)]; exact hlines⟩
      rw [if_neg hha] at hts
      by_cases hlp : _is_lparen c = true
      · rw [if_pos hlp, Option.map_eq_map, Option.map_eq_some'] at hts
        obtain ⟨us, hus, hts'⟩ := hts
        subst hts'
        have hc : c = '(' := by simpa [_is_lparen] using hlp
        subst hc
        obtain ⟨hcount, hlines⟩ := ih cs extra ln us hus hn'
        refine ⟨?_, ?_⟩
        · rw [List.countP_cons, List.countP_cons, hcount]
          simp [isNewlineTok, isNewlineChar]
        · exact ⟨rfl, by rw [if_neg (by simp)]; exact hlines⟩
      rw [if_neg hlp] at hts
      by_cases hrp : _is_rparen c = true
      · rw [if_pos hrp, Option.map_eq_map, Option.map_eq_some'] at hts
        obtain ⟨us, hus, hts'⟩ := hts
        subst hts'
        have hc : c = ')' := by simpa [_is_rparen] using hrp
        subst hc
        obtain ⟨hcount, hlines⟩ := ih cs extra ln us hus hn'
        refine ⟨?_, ?_⟩
        · rw [List.countP_cons, List.countP_cons, hcount]
          simp [isNewlineTok, isNewlineChar]
        · exact ⟨rfl, by rw [if_neg (by simp)]; exact hlines⟩
      rw [if_neg hrp] at hts
      have hw : _is_word c = true :=
        _is_word_of_not_special c
          (Bool.eq_false_iff.mpr hsp) (Bool.eq_false_iff.mpr hnl)
          (Bool.eq_false_iff.mpr hco) (Bool.eq_false_iff.mpr hse)
          (Bool.eq_false_iff.mpr hqu) (Bool.eq_false_iff.mpr hha)
          (Bool.eq_false_iff.mpr hlp) (Bool.eq_false_iff.mpr hrp)
      by_cases hwv : 0 < (wordValue extra ((c :: cs).takeWhile _is_word)).length
      · rw [if_pos hwv, Option.map_eq_map, Option.map_eq_some'] at hts
        obtain ⟨us, hus, hts'⟩ := hts
        subst hts'
        obtain ⟨hcount, hlines⟩ := ih _ "" ln us hus
          (Nat.le_trans (dropWhile_cons_le _ c cs hw) hn')
        refine ⟨?_, ?_⟩
        · rw [List.countP_cons, hcount,
            ← countP_newline_dropWhile _is_word (c :: cs) word_ne_newline]
          simp [isNewlineTok]
        · exact ⟨rfl, by rw [if_neg (by simp)]; exact hlines⟩
      · rw [if_neg hwv] at hts
        exact absurd hts (by simp)

/-- Pointwise reading of `linesConsistent`: the token at index `i` is on
line `ln` plus the number of NEWLINE tokens among the first `i` tokens. -/
theorem linesConsistent_get :
    ∀ (ts : List Token) (ln : Nat), linesConsistent ln ts →
      ∀ i (hi : i < ts.length),
        (ts.get ⟨i, hi⟩).line_number = ln + (ts.take i).countP isNewlineTok := by
  intro ts
  induction ts with
  | nil =>
    intro ln _ i hi
    exact absurd hi (by simp)
  | cons t ts ih =>
    intro ln h i hi
    cases i with
    | zero => simpa using h.1
    | succ i =>
      have hi' : i < ts.length := by simpa using hi
      rw [List.get_cons_succ, List.take_succ_cons, List.countP_cons]
      by_cases hk : t.token_type = TokenType.NEWLINE
      · have h2 := h.2
        rw [if_pos hk] at h2
        rw [ih (ln + 1) h2 i hi']
        simp [isNewlineTok, hk]
        omega
      · have h2 := h.2
        rw [if_neg hk] at h2
        rw [ih ln h2 i hi']
        simp [isNewlineTok, hk]

/-! ### Properties of `condense` -/

/-- The grammatical kinds produced by keyword promotion. -/
def isPromotedKind : TokenType → Bool
  | TokenType.ARGUMENTS => true
  | TokenType.YIELDS => true
  | TokenType.RAISES => true
  | TokenType.RETURNS => true
  | TokenType.NOQA => true
  | _ => false

/-- A token of a promoted kind holds exactly the reserved word mapping to
that kind. -/
def promotedCoherent (t : Token) : Prop :=
  isPromotedKind t.token_type = true → keywordLookup t.value = some t.token_type

/-- A non-WORD accumulator is always flushed unchanged as the next output
token. -/
theorem condenseAux_head (curr : Token) (ts : List Token)
    (h : curr.token_type ≠ TokenType.WORD) :
    (condenseAux curr ts).head? = some curr := by
  cases ts with
  | nil => rfl
  | cons t rest =>
    by_cases htw : t.token_type = TokenType.WORD
    · simp only [condenseAux, if_pos htw]
      cases hk : keywordLookup t.value with
      | some k => rfl
      | none =>
        rw [if_neg h]
        rfl
    · simp only [condenseAux, if_neg htw]
      rfl

/-- Merging consecutive WORD fragments: an all-WORD, keyword-free token
stream condenses to the single space-joined token. -/
theorem condenseAux_words :
    ∀ (ts : List Token) (curr : Token),
      curr.token_type = TokenType.WORD →
      (∀ t ∈ ts, t.token_type = TokenType.WORD ∧ keywordLookup t.value = none) →
      condenseAux curr ts
        = [Token.mk (joinSpaces (curr.value :: ts.map Token.value))
            TokenType.WORD curr.line_number] := by
  intro ts
  induction ts with
  | nil =>
    intro curr hcurr _
    cases curr with
    | mk v k l =>
      simp only [condenseAux, List.map_nil, joinSpaces]
      simp only at hcurr
      rw [hcurr]
  | cons t ts ih =>
    intro curr hcurr hts
    obtain ⟨htw, htk⟩ := hts t (List.mem_cons_self t ts)
    simp only [condenseAux, if_pos htw, htk, if_pos hcurr]
    rw [ih (Token.mk (curr.value ++ " " ++ t.value) curr.token_type
      curr.line_number) hcurr
      (fun u hu => hts u (List.mem_cons_of_mem t hu))]
    have hjoin : ∀ (a b : String) (l : List String),
        joinSpaces ((a ++ " " ++ b) :: l) = a ++ " " ++ joinSpaces (b :: l) := by
      intro a b l
      cases l with
      | nil => simp [joinSpaces]
      | cons c l => simp [joinSpaces, String.append_assoc]
    rw [hjoin]
    rfl

/-- The accumulator-threading loop of `condense` preserves coherence of
promoted kinds. -/
theorem condenseAux_promoted_sound :
    ∀ (ts : List Token) (curr : Token),
      promotedCoherent curr → (∀ t ∈ ts, promotedCoherent t) →
      ∀ t' ∈ condenseAux curr ts, promotedCoherent t' := by
  intro ts
  induction ts with
  | nil =>
    intro curr hcurr _ t' ht'
    rw [List.mem_singleton.mp ht']
    exact hcurr
  | cons t ts ih =>
    intro curr hcurr hts t' ht'
    have htail : ∀ u ∈ ts, promotedCoherent u :=
      fun u hu => hts u (List.mem_cons_of_mem t hu)
    by_cases htw : t.token_type = TokenType.WORD
    · rw [condenseAux, if_pos htw] at ht'
      cases hk : keywordLookup t.value with
      | some k =>
        rw [hk] at ht'
        rcases List.mem_cons.mp ht' with h | h
        · rw [h]; exact hcurr
        · exact ih (Token.mk t.value k t.line_number) (fun _ => hk) htail t' h
      | none =>
        rw [hk] at ht'
        by_cases hcw : curr.token_type = TokenType.WORD
        · rw [if_pos hcw] at ht'
          refine ih _ ?_ htail t' ht'
          intro habs
          rw [show (Token.mk (curr.value ++ " " ++ t.value) curr.token_type
            curr.line_number).token_type = curr.token_type from rfl, hcw] at habs
          exact absurd habs (by simp [isPromotedKind])
        · rw [if_neg hcw] at ht'
          rcases List.mem_cons.mp ht' with h | h
          · rw [h]; exact hcurr
          · exact ih t (hts t (List.mem_cons_self t ts)) htail t' h
    · rw [condenseAux, if_neg htw] at ht'
      rcases List.mem_cons.mp ht' with h | h
      · rw [h]; exact hcurr
      · exact ih t (hts t (List.mem_cons_self t ts)) htail t' h

/-- A keyword never maps to the WORD kind. -/
theorem keywordLookup_ne_word (v : String) (k : TokenType)
    (h : keywordLookup v = some k) : k ≠ TokenType.WORD := by
  unfold keywordLookup at h
  split at h <;>
    first
    | (injection h with h2; subst h2; decide)
    | exact Option.noConfusion h

/-- Coherence of promoted kinds holds for the whole of `condense`. -/
theorem condense_promoted_sound (ts : List Token)
    (h : ∀ t ∈ ts, promotedCoherent t) :
    ∀ t' ∈ condense ts, promotedCoherent t' := by
  cases ts with
  | nil =>
    intro t' ht'
    exact absurd ht' (by simp [condense])
  | cons t rest =>
    have htail : ∀ u ∈ rest, promotedCoherent u :=
      fun u hu => h u (List.mem_cons_of_mem t hu)
    cases hk : keywordLookup t.value with
    | some k =>
      intro t' ht'
      simp only [condense, hk] at ht'
      exact condenseAux_promoted_sound rest (Token.mk t.value k t.line_number)
        (fun _ => hk) htail t' ht'
    | none =>
      intro t' ht'
      simp only [condense, hk] at ht'
      exact condenseAux_promoted_sound rest t (h t (List.mem_cons_self t rest))
        htail t' ht'

/-! ### Claim theorems -/

/-- C3: a maximal run of `k` consecutive spaces makes `lex` emit exactly
`k / 4` INDENT tokens, each with value four literal spaces, on the
current line, regardless of the surrounding context (any pending prefix,
any line number, any following input); a remainder of 1–3 spaces
produces no token and no error, so `k < 4` produces no INDENT token. -/
theorem space_run_indentation (k : Nat) (rest : List Char) (extra : String)
    (ln : Nat) (hrest : ∀ d, rest.head? = some d → _is_space d = false) :
    lexList (List.replicate k ' ' ++ rest) extra ln
      = List.replicate (k / 4)
          (Token.mk (String.mk (List.replicate 4 ' ')) TokenType.INDENT ln)
          ++ lexList rest extra ln :=
  lexList_space_run k rest extra ln hrest

/-- Witness for C3 at `k = 6` followed by a word character: one INDENT
token, two spaces dropped. -/
theorem space_run_indentation_witness :
    lexList (List.replicate 6 ' ' ++ ['x']) "" 0
      = List.replicate (6 / 4)
          (Token.mk (String.mk (List.replicate 4 ' ')) TokenType.INDENT 0)
          ++ lexList ['x'] "" 0 :=
  space_run_indentation 6 ['x'] "" 0
    (fun d hd => by injection hd with h2; subst h2; decide)

/-- C7: `lex` on the empty string and on a `none` input yields no
tokens, and `condense` of the empty token list is the empty list. -/
theorem empty_input_yields_empty :
    lex "" = [] ∧ lexOptInput none = [] ∧ condense [] = [] :=
  ⟨rfl, rfl, rfl⟩

/-- C8: `lex` is deterministic — any two runs of the lexer loop over the
same text (with any two sufficient fuel bounds, i.e. any two freshly
constructed cursors) produce the identical token sequence. -/
theorem lex_deterministic (program : String) (fuel₁ fuel₂ : Nat)
    (h₁ : program.data.length ≤ fuel₁) (h₂ : program.data.length ≤ fuel₂) :
    lexAux fuel₁ program.data "" 0 = lexAux fuel₂ program.data "" 0 :=
  lexAux_fuel_irrelevant fuel₁ fuel₂ program.data "" 0 h₁ h₂

/-- Witness for C8 on the text `ab` with two different fuel bounds. -/
theorem lex_deterministic_witness :
    lexAux 2 "ab".data "" 0 = lexAux 7 "ab".data "" 0 :=
  lex_deterministic "ab" 2 7 (by decide) (by decide)

/-- C9: the classification predicates are exhaustive, so the word run
consumed in the final branch of `lex` is never empty, the internal
assertion never fires, and `lex` terminates normally on every input,
producing some token sequence (never the `none` of a failed run). -/
theorem lexer_total_no_assert :
    (∀ c : Char, _is_space c = false → _is_newline c = false →
      _is_colon c = false → _is_separator c = false →
      _is_double_quotation c = false → _is_hash c = false →
      _is_lparen c = false → _is_rparen c = false → _is_word c = true)
    ∧ ∀ (program : String) (fuel : Nat), program.data.length ≤ fuel →
        lexAux fuel program.data "" 0 = some (lex program) :=
  ⟨_is_word_of_not_special,
   fun program fuel h => lexAux_eq_some_lexList fuel program.data "" 0 h⟩

/-- Witness for C9: a concrete non-special character is a word
character, and lexing a concrete text succeeds. -/
theorem lexer_total_no_assert_witness :
    _is_word 'x' = true ∧ lexAux 3 "a b".data "" 0 = some (lex "a b") :=
  ⟨lexer_total_no_assert.1 'x' (by decide) (by decide) (by decide) (by decide)
      (by decide) (by decide) (by decide) (by decide),
   lexer_total_no_assert.2 "a b" 3 (by decide)⟩

/-- C1 counterexample: on the input `""""x` (a maximal run of 4 quote
characters followed by a word), the claim predicts that the leftover
quote is prepended to the next WORD token (value `"x`); the code instead
drops it (value `x`), because the pending-prefix assignment only happens
when the whole run is shorter than 3. -/
theorem quote_run_grouping_counterexample :
    lex (String.mk ['"', '"', '"', '"', 'x'])
      = [Token.mk (String.mk ['"', '"', '"']) TokenType.DOCTERM 0,
         Token.mk (String.mk ['x']) TokenType.WORD 0]
    ∧ lex (String.mk ['"', '"', '"', '"', 'x'])
        ≠ [Token.mk (String.mk ['"', '"', '"']) TokenType.DOCTERM 0,
           Token.mk (String.mk ['"', 'x']) TokenType.WORD 0] := by
  constructor
  · decide
  · decide

/-- C1 (amended): a maximal run of `k ≥ 1` double quotes emits exactly
`k / 3` DOCTERM tokens (value three quotes); when `k < 3` the run is
held as the pending prefix (replacing any previous one) and is prepended
to the very next WORD token's value, which clears the prefix; when
`k ≥ 3` the `k mod 3` leftover quotes are silently dropped at once and
the pending prefix is left as it was; at end of input a pending prefix
is silently lost. -/
theorem quote_run_grouping :
    (∀ (k : Nat) (rest : List Char) (extra : String) (ln : Nat),
        1 ≤ k → (∀ d, rest.head? = some d → _is_double_quotation d = false) →
        lexList (List.replicate k '"' ++ rest) extra ln
          = if 3 ≤ k then
              List.replicate (k / 3)
                (Token.mk (String.mk ['"', '"', '"']) TokenType.DOCTERM ln)
                ++ lexList rest extra ln
            else
              lexList rest (String.mk (List.replicate k '"')) ln)
    ∧ (∀ (w rest : List Char) (extra : String) (ln : Nat),
        w ≠ [] → (∀ c ∈ w, _is_word c = true) →
        (∀ d, rest.head? = some d → _is_word d = false) →
        lexList (w ++ rest) extra ln
          = Token.mk (extra ++ String.mk w) TokenType.WORD ln
              :: lexList rest "" ln)
    ∧ (∀ (extra : String) (ln : Nat), lexList [] extra ln = []) :=
  ⟨fun k rest extra ln hk hrest => lexList_quote_run k rest extra ln hk hrest,
   fun w rest extra ln hne hw hrest =>
     lexList_word_run w rest extra ln hne hw hrest,
   fun _ _ => rfl⟩

/-- Witness for C1 at `k = 5` (one DOCTERM, two quotes dropped) and at
`k = 2` followed by a word (prefix prepended). -/
theorem quote_run_grouping_witness :
    lexList (List.replicate 5 '"' ++ ['x']) "" 0
      = List.replicate (5 / 3)
          (Token.mk (String.mk ['"', '"', '"']) TokenType.DOCTERM 0)
          ++ lexList ['x'] "" 0
    ∧ lexList (['x'] ++ []) (String.mk ['"', '"']) 0
        = Token.mk (String.mk ['"', '"'] ++ String.mk ['x']) TokenType.WORD 0
            :: lexList [] "" 0 := by
  refine ⟨?_, ?_⟩
  · have h1 := quote_run_grouping.1 5 ['x'] "" 0 (by decide)
      (fun d hd => by injection hd with h2; subst h2; decide)
    rw [if_pos (by decide)] at h1
    exact h1
  · exact quote_run_grouping.2.1 ['x'] [] (String.mk ['"', '"']) 0
      (by decide) (fun c hc => by simp at hc; subst hc; decide)
      (fun d hd => by simp at hd)

/-- C10: when a short quote run stores leftover quotes while an earlier
leftover is still pending, the new leftover replaces the old one (the
result does not depend on the previous pending prefix), so only the most
recent leftover reaches the next WORD token; concretely, lexing
`":""x` prepends only `""` to `x` and the first `"` is lost. -/
theorem pending_quote_replacement :
    (∀ (k : Nat) (rest : List Char) (extra : String) (ln : Nat),
        1 ≤ k → k < 3 →
        (∀ d, rest.head? = some d → _is_double_quotation d = false) →
        lexList (List.replicate k '"' ++ rest) extra ln
          = lexList rest (String.mk (List.replicate k '"')) ln)
    ∧ lex (String.mk ['"', ':', '"', '"', 'x'])
        = [Token.mk (String.mk [':']) TokenType.COLON 0,
           Token.mk (String.mk ['"', '"', 'x']) TokenType.WORD 0] := by
  constructor
  · intro k rest extra ln h1 h3 hrest
    have h := lexList_quote_run k rest extra ln h1 hrest
    rw [if_neg (by omega)] at h
    exact h
  · decide

/-- Witness for C10 at `k = 2` with a previously pending single quote:
the stored prefix is the new two-quote run, independent of the old. -/
theorem pending_quote_replacement_witness :
    lexList (List.replicate 2 '"' ++ [':']) (String.mk ['"']) 0
      = lexList [':'] (String.mk (List.replicate 2 '"')) 0 :=
  pending_quote_replacement.1 2 [':'] (String.mk ['"']) 0 (by decide)
    (by decide) (fun d hd => by injection hd with h2; subst h2; decide)

/-- C4: the number of NEWLINE tokens `lex` emits equals the number of
newline characters in the input, and every token's `line_number` equals
the number of NEWLINE tokens emitted strictly before it (0-based; a
NEWLINE token carries the line number in effect before the counter
increments). -/
theorem lex_line_accounting (program : String) :
    (lex program).countP isNewlineTok = program.data.countP isNewlineChar
    ∧ ∀ i (hi : i < (lex program).length),
        ((lex program).get ⟨i, hi⟩).line_number
          = ((lex program).take i).countP isNewlineTok := by
  have hsome : lexAux program.data.length program.data "" 0
      = some (lex program) :=
    lexAux_eq_some_lexList program.data.length program.data "" 0
      (Nat.le_refl _)
  obtain ⟨hcount, hlines⟩ := lexAux_count_lines program.data.length
    program.data "" 0 (lex program) hsome (Nat.le_refl _)
  refine ⟨hcount, ?_⟩
  intro i hi
  have h := linesConsistent_get (lex program) 0 hlines i hi
  simpa using h

/-- Witness for C4 on the text `a` newline `b`: the token after the
NEWLINE is on line 1, which is the NEWLINE count before it. -/
theorem lex_line_accounting_witness :
    (lex (String.mk ['a', '\n', 'b'])).countP isNewlineTok
      = (String.mk ['a', '\n', 'b']).data.countP isNewlineChar
    ∧ ((lex (String.mk ['a', '\n', 'b'])).get ⟨2, by decide⟩).line_number
        = ((lex (String.mk ['a', '\n', 'b'])).take 2).countP isNewlineTok :=
  ⟨(lex_line_accounting (String.mk ['a', '\n', 'b'])).1,
   (lex_line_accounting (String.mk ['a', '\n', 'b'])).2 2 (by decide)⟩

/-- C2 counterexample: `condense` promotes a first token whose value is
`Args` even though its kind is COLON, not WORD — the first-token check
inspects only the value, contradicting the claim that a non-WORD first
token keeps its kind. -/
theorem condense_first_token_counterexample :
    condense [Token.mk "Args" TokenType.COLON 0]
      = [Token.mk "Args" TokenType.ARGUMENTS 0]
    ∧ condense [Token.mk "Args" TokenType.COLON 0]
        ≠ [Token.mk "Args" TokenType.COLON 0] := by
  constructor
  · decide
  · decide

/-- C2 (amended): the first token's kind is changed to the mapped
grammatical kind whenever its value exactly matches a keyword entry,
regardless of its original kind (the first-token check does not inspect
the kind); the promoted token's value and line are left unchanged and it
is flushed as the first output token; a first token matching no keyword
and not of kind WORD is emitted unchanged as the first output token. -/
theorem condense_first_token_promotion (t : Token) (rest : List Token) :
    (∀ k, keywordLookup t.value = some k →
      (condense (t :: rest)).head?
        = some (Token.mk t.value k t.line_number))
    ∧ (keywordLookup t.value = none → t.token_type ≠ TokenType.WORD →
      (condense (t :: rest)).head? = some t) := by
  constructor
  · intro k hk
    simp only [condense, hk]
    exact condenseAux_head (Token.mk t.value k t.line_number) rest
      (keywordLookup_ne_word t.value k hk)
  · intro hk hw
    simp only [condense, hk]
    exact condenseAux_head t rest hw

/-- Witness for C2: the COLON-kind token with value `Args` is promoted
to ARGUMENTS, and a COLON-kind token with value `:` stays unchanged. -/
theorem condense_first_token_promotion_witness :
    (condense [Token.mk "Args" TokenType.COLON 3]).head?
      = some (Token.mk "Args" TokenType.ARGUMENTS 3)
    ∧ (condense [Token.mk ":" TokenType.COLON 3]).head?
        = some (Token.mk ":" TokenType.COLON 3) :=
  ⟨(condense_first_token_promotion (Token.mk "Args" TokenType.COLON 3) []).1
      TokenType.ARGUMENTS (by decide),
   (condense_first_token_promotion (Token.mk ":" TokenType.COLON 3) []).2
      (by decide) (by decide)⟩

/-- C5: a non-empty sequence of `m` consecutive WORD tokens, none of
whose values is a keyword, condenses to exactly one token whose value is
the `m` values joined in order by single spaces, whose kind is WORD, and
whose line is the line of the first fragment. -/
theorem condense_word_merge (ts : List Token) (hne : ts ≠ [])
    (h : ∀ t ∈ ts, t.token_type = TokenType.WORD ∧
      keywordLookup t.value = none) :
    condense ts
      = [Token.mk (joinSpaces (ts.map Token.value)) TokenType.WORD
          (ts.head hne).line_number] := by
  cases ts with
  | nil => exact absurd rfl hne
  | cons t rest =>
    obtain ⟨htw, htk⟩ := h t (List.mem_cons_self t rest)
    simp only [condense, htk, List.map_cons, List.head_cons]
    exact condenseAux_words rest t htw
      (fun u hu => h u (List.mem_cons_of_mem t hu))

/-- Witness for C5 on three WORD fragments. -/
theorem condense_word_merge_witness :
    condense [Token.mk "foo" TokenType.WORD 2, Token.mk "bar" TokenType.WORD 2,
        Token.mk "baz" TokenType.WORD 3]
      = [Token.mk (joinSpaces ([Token.mk "foo" TokenType.WORD 2,
          Token.mk "bar" TokenType.WORD 2,
          Token.mk "baz" TokenType.WORD 3].map Token.value)) TokenType.WORD
          (([Token.mk "foo" TokenType.WORD 2, Token.mk "bar" TokenType.WORD 2,
            Token.mk "baz" TokenType.WORD 3].head (by decide)).line_number)] :=
  condense_word_merge _ (by decide) (by decide)

/-- C6: a non-first WORD token whose value exactly matches a keyword
always flushes the accumulator and starts a new accumulator with the
mapped kind (so adjacent keyword WORDs are never merged, each becoming
its own promoted token — shown concretely for `Raises Returns`), and a
token of promoted kind in the output of `condense` always holds exactly
the keyword mapping to that kind, so a merged multi-word value merely
containing a keyword is never promoted. -/
theorem keyword_promotion_exact :
    (∀ (curr t : Token) (rest : List Token) (k : TokenType),
        t.token_type = TokenType.WORD → keywordLookup t.value = some k →
        condenseAux curr (t :: rest)
          = curr :: condenseAux (Token.mk t.value k t.line_number) rest)
    ∧ (∀ (ts : List Token), (∀ t ∈ ts, promotedCoherent t) →
        ∀ t' ∈ condense ts, promotedCoherent t')
    ∧ condense [Token.mk "Raises" TokenType.WORD 0,
        Token.mk "Returns" TokenType.WORD 0]
        = [Token.mk "Raises" TokenType.RAISES 0,
           Token.mk "Returns" TokenType.RETURNS 0] := by
  refine ⟨?_, condense_promoted_sound, by decide⟩
  intro curr t rest k htw hk
  simp only [condenseAux, if_pos htw, hk]

/-- Witness for C6: a keyword WORD token after a plain word starts its
own promoted accumulator, and coherence holds on a concrete output. -/
theorem keyword_promotion_exact_witness :
    condenseAux (Token.mk "a" TokenType.WORD 0)
      [Token.mk "Args" TokenType.WORD 1]
      = Token.mk "a" TokenType.WORD 0
          :: condenseAux (Token.mk "Args" TokenType.ARGUMENTS 1) []
    ∧ promotedCoherent (Token.mk "noqa" TokenType.NOQA 0) :=
  ⟨keyword_promotion_exact.1 (Token.mk "a" TokenType.WORD 0)
      (Token.mk "Args" TokenType.WORD 1) [] TokenType.ARGUMENTS
      (by decide) (by decide),
   keyword_promotion_exact.2.1 [Token.mk "noqa" TokenType.NOQA 0]
      (by intro u hu; rw [List.mem_singleton.mp hu]; intro _; decide)
      (Token.mk "noqa" TokenType.NOQA 0) (by decide)⟩
